import Mathlib

/-!
Verification of `cleanup_music_folder_files.py` against its specification.

The Python source is shallowly embedded: pure helpers become Lean functions
on `String` / `List Char`, the filesystem becomes an association list from
file names to file attributes (content hash and modification time), and each
processing function is written in state-passing style over a `PState`
(filesystem + accumulated action log + action counters).  All processing is
per-directory, exactly as in the source: the source joins `dirpath` onto
every name with `os.path.join` and strips it back off with
`os.path.basename`; since every file of one pass lives in the one directory,
prepending the common `dirpath + os.sep` prefix changes neither the
modification-time lookups nor the lexicographic comparisons, so the model
works with the directory-relative names throughout.

Modelling conventions:
  * `mtime` values (Python floats from `os.path.getmtime`) are integers;
    only their ordering is used by the source.
  * a file's SHA-256 digest is an abstract `Nat`; a file whose content
    cannot be read (the `except` branch around `sha256_of_file`) has
    `hash = none`.
  * Python character predicates (`\s`, `\d`, `str.isalpha`, `str.lower`)
    are modelled on the code points the claims exercise: `\s` covers the
    ASCII and Unicode whitespace of Python's `re` module, `\d` and
    `isalpha`/`lower` are modelled on ASCII (Python also accepts non-ASCII
    Unicode digits and letters; no claim depends on those).
  * `raise ValueError` is modelled by returning `none`.
-/

/-- Python's `\s` character class (and `str.strip`'s whitespace set) for
`str` patterns: ASCII whitespace, the C1 separators, NEL, and the Unicode
space characters. -/
def pyIsSpace (c : Char) : Bool :=
  c.toNat = 32 || (9 ≤ c.toNat && c.toNat ≤ 13) || (28 ≤ c.toNat && c.toNat ≤ 31) ||
  c.toNat = 133 || c.toNat = 160 || c.toNat = 0x1680 ||
  (0x2000 ≤ c.toNat && c.toNat ≤ 0x200A) || c.toNat = 0x2028 || c.toNat = 0x2029 ||
  c.toNat = 0x202F || c.toNat = 0x205F || c.toNat = 0x3000

/-- Python's `\d` on ASCII: the characters `'0'..'9'`. -/
def isAsciiDigit (c : Char) : Bool :=
  48 ≤ c.toNat && c.toNat ≤ 57

/-- Numeric value of an ASCII digit, as used by `int(m.group(1))`. -/
def digitVal (c : Char) : Nat := c.toNat - 48

/-- The separator class of `TRACK_RE`: `[-‐–—−]`
(hyphen-minus, hyphen, en dash, em dash, minus sign). -/
def sepChar (c : Char) : Bool :=
  c.toNat = 0x2D || c.toNat = 0x2010 || c.toNat = 0x2013 || c.toNat = 0x2014 ||
  c.toNat = 0x2212

/-- `str.strip()`: drop leading and trailing whitespace. -/
def pyStrip (l : List Char) : List Char :=
  ((l.dropWhile pyIsSpace).reverse.dropWhile pyIsSpace).reverse

/-- Index of the last `'.'` of a list of characters, if any
(`p.rfind('.')` in `posixpath.splitext`). -/
def lastDotIndex : List Char → Option Nat
  | [] => none
  | c :: rest =>
    match lastDotIndex rest with
    | some i => some (i + 1)
    | none => if c == '.' then some 0 else none

/-- `os.path.splitext` on a plain file name (no directory separators): split
at the last dot, except that a name whose part before that dot is empty or
all dots (such as `.bashrc`) keeps its dot and has no extension. -/
def splitext (f : List Char) : List Char × List Char :=
  match lastDotIndex f with
  | none => (f, [])
  | some i =>
    if (f.take i).any (fun c => !(c == '.')) then (f.take i, f.drop i) else (f, [])

/-- Whether the text `v` can finish the match against `(.+)$`: Python's `.`
matches anything but `'\n'`, and `$` matches at the end of the string or just
before a final `'\n'`.  Returns the text captured by the group. -/
def dotPlusEnd (v : List Char) : Option (List Char) :=
  let v' := if v.getLast? == some '\n' then v.dropLast else v
  if !v'.isEmpty && v'.all (fun c => !(c == '\n')) then some v' else none

/-- Backtracking over a greedy `\s*` that precedes `(.+)$`: try the capture
after dropping `b` characters, then `b - 1`, ..., then `0` (the regex engine
gives back one consumed whitespace character at a time). -/
def tryCaptures (u : List Char) : Nat → Option (List Char)
  | 0 => dotPlusEnd u
  | b + 1 =>
    match dotPlusEnd (u.drop (b + 1)) with
    | some g => some g
    | none => tryCaptures u b

/-- Length of the maximal whitespace prefix. -/
def spacePrefixLen (u : List Char) : Nat := (u.takeWhile pyIsSpace).length

/-- The tail of `TRACK_RE` after the digit group:
`\s*(?:[-‐–—−]\s*|\s+)?(.+)$`, with Python's
leftmost-greedy backtracking semantics.  After the greedy `\s*` (say `k`
characters), the alternation's first branch applies only when the next
character is a separator (a whitespace character is never a separator, so
re-trying the branch at an earlier position cannot succeed); its inner `\s*`
backtracks from maximal to empty.  The second branch `\s+` and the empty
branch, across all backtracking positions of the outer `\s*`, try the capture
after `k, k-1, ..., 0` consumed whitespace characters, in that order. -/
def trackTail (u : List Char) : Option (List Char) :=
  let k := spacePrefixLen u
  let viaSep : Option (List Char) :=
    match u.drop k with
    | c :: r => if sepChar c then tryCaptures r (spacePrefixLen r) else none
    | [] => none
  match viaSep with
  | some g => some g
  | none => tryCaptures u k

/-- `TRACK_RE.match(base)` followed by `int(m.group(1))` and `m.group(2)`:
returns the track number and the raw capture of the title group.  The leading
`\s*` consumes the maximal whitespace prefix (whitespace and digits are
disjoint, so it never backtracks usefully); `(\d{1,2})` greedily tries two
digits and falls back to one when the rest of the pattern cannot match. -/
def TRACK_RE_match (base : List Char) : Option (Nat × List Char) :=
  let t := base.drop (spacePrefixLen base)
  match t with
  | d1 :: t1 =>
    if isAsciiDigit d1 then
      let oneDigit : Option (Nat × List Char) :=
        match trackTail t1 with
        | some g => some (digitVal d1, g)
        | none => none
      match t1 with
      | d2 :: t2 =>
        if isAsciiDigit d2 then
          match trackTail t2 with
          | some g => some (10 * digitVal d1 + digitVal d2, g)
          | none => oneDigit
        else oneDigit
      | [] => oneDigit
    else none
  | [] => none

/-- `extract_track_info(filename)`: the global no-space guard checks the full
file name (extension included); the regex runs on the stem; the returned
title is the capture stripped of surrounding whitespace.  The global
`IGNORE_NO_SPACE` is passed explicitly. -/
def extract_track_info (ignore_no_space : Bool) (filename : String) : Option (Nat × String) :=
  if ignore_no_space && !(filename.data.contains ' ') then none
  else
    match TRACK_RE_match (splitext filename.data).1 with
    | some (track, g) => some (track, String.mk (pyStrip g))
    | none => none

/-- Python `str.lower()` on ASCII letters (`Char.toLower` maps `A`–`Z`;
non-ASCII case mapping is not modelled). -/
def asciiLower (s : String) : String := String.mk (s.data.map Char.toLower)

/-- Python `str.isalpha()` on ASCII letters (Unicode letters are not
modelled; no claim exercises them). -/
def isAsciiAlpha (c : Char) : Bool :=
  (65 ≤ c.toNat && c.toNat ≤ 90) || (97 ≤ c.toNat && c.toNat ≤ 122)

/-- `ILLEGAL_CHARS_RE`: `[<>:"/\\|?*\x00]`. -/
def isIllegalChar (c : Char) : Bool :=
  c == '<' || c == '>' || c == ':' || c == '"' || c == '/' || c == '\\' ||
  c == '|' || c == '?' || c == '*' || c == '\x00'

/-- `ILLEGAL_CHARS_RE.sub(' - ', s)`: each illegal character becomes the
three characters `' - '`. -/
def replIllegal : List Char → List Char
  | [] => []
  | c :: rest =>
    if isIllegalChar c then ' ' :: '-' :: ' ' :: replIllegal rest
    else c :: replIllegal rest

/-- `re.sub(r'\s+', ' ', s)`: every maximal whitespace run becomes one
space.  The flag records whether the previous character was whitespace. -/
def collapseWsAux : Bool → List Char → List Char
  | _, [] => []
  | prevSpace, c :: rest =>
    if pyIsSpace c then
      if prevSpace then collapseWsAux true rest
      else ' ' :: collapseWsAux true rest
    else c :: collapseWsAux false rest

/-- `sanitize_filename_component`: replace illegal filesystem characters
with `' - '`, collapse whitespace runs, strip. -/
def sanitize_filename_component (s : String) : String :=
  String.mk (pyStrip (collapseWsAux false (replIllegal s.data)))

/-- `is_sidecar_by_prefix(filename)`: the lowercased stem either equals a
configured prefix (also lowercased), starts with it followed by a space,
hyphen, underscore or dot, or starts with it followed by a non-alphabetic
character when the stem is strictly longer.  The global `SIDECAR_PREFIXES`
is passed explicitly. -/
def is_sidecar_by_prefix (sidecar_prefixes : List String) (filename : String) : Bool :=
  let base := (splitext filename.data).1.map Char.toLower
  sidecar_prefixes.any (fun pr =>
    let p := pr.data.map Char.toLower
    base == p ||
    (p ++ [' ']).isPrefixOf base || (p ++ ['-']).isPrefixOf base ||
    (p ++ ['_']).isPrefixOf base || (p ++ ['.']).isPrefixOf base ||
    (p.isPrefixOf base && decide (p.length < base.length) &&
      !(isAsciiAlpha (base.getD p.length ' '))))

/-!  ## String ordering

Python compares strings by code point, lexicographically; `sorted` returns
the ascending stable ordering.  The comparison is modelled directly on the
character lists (it agrees with Lean's `String` order; having our own keeps
every step computable and provable by elementary induction). -/

/-- Python `a < b` on strings: lexicographic by code point. -/
def strLtL : List Char → List Char → Bool
  | [], [] => false
  | [], _ :: _ => true
  | _ :: _, [] => false
  | a :: as, b :: bs =>
    if a.toNat < b.toNat then true
    else if b.toNat < a.toNat then false
    else strLtL as bs

/-- Python `a <= b` on strings. -/
def strLe (a b : String) : Bool := !(strLtL b.data a.data)

/-- Insert into a `strLe`-sorted list, keeping it sorted. -/
def insertLe (x : String) : List String → List String
  | [] => [x]
  | y :: ys => if strLe x y then x :: y :: ys else y :: insertLe x ys

/-- Ascending sort by Python string comparison, as `sorted` produces. -/
def sortedStrings : List String → List String
  | [] => []
  | x :: xs => insertLe x (sortedStrings xs)

/-!  ## Filesystem and run state -/

/-- Attributes of one directory entry: the content hash computed by
`sha256_of_file` (`none` when reading the file raises, the warned-and-skipped
branch) and the `os.path.getmtime` modification time. -/
structure FileInfo where
  hash : Option Nat
  mtime : Int
deriving DecidableEq

/-- One directory's contents: an association list from file name to
attributes.  Listing order is irrelevant — the source always sorts
`os.listdir` output. -/
abbrev FS := List (String × FileInfo)

/-- Association-list lookup by file name. -/
def FS.lookup (fs : FS) (n : String) : Option FileInfo :=
  match fs with
  | [] => none
  | (m, i) :: rest => if m == n then some i else FS.lookup rest n

/-- `os.path.exists` / `os.path.isfile` within the directory. -/
def FS.hasFile (fs : FS) (n : String) : Bool := (FS.lookup fs n).isSome

/-- `sha256_of_file`, `none` on a read error. -/
def FS.hash (fs : FS) (n : String) : Option Nat :=
  match FS.lookup fs n with
  | some i => i.hash
  | none => none

/-- `file_mtime` (`os.path.getmtime`).  The source would raise `OSError` on
a missing file; the modelled flows only query files just listed, so the
default `0` is never observable. -/
def FS.mtime (fs : FS) (n : String) : Int :=
  match FS.lookup fs n with
  | some i => i.mtime
  | none => 0

/-- `os.remove`. -/
def FS.remove (fs : FS) (n : String) : FS := fs.filter (fun e => !(e.1 == n))

/-- `os.replace src dst`: move `src` onto `dst`, overwriting `dst`; the
moved file keeps its attributes (in particular its mtime). -/
def FS.replace (fs : FS) (src dst : String) : FS :=
  match FS.lookup fs src with
  | none => fs
  | some i => FS.remove (FS.remove fs src) dst ++ [(dst, i)]

/-- `sorted(os.listdir(dirpath))` restricted to files — every entry of the
model is a file. -/
def FS.listdir (fs : FS) : List String := sortedStrings (fs.map (fun e => e.1))

/-- One entry of the process-wide `action_log`: the `[DRY]`/`[DO ]` flag of
`vaction` and the message text. -/
structure LogEntry where
  dry : Bool
  msg : String
deriving DecidableEq

/-- The process-wide `action_counters` of interest to the claims. -/
structure Counters where
  removed_duplicates : Nat := 0
  renames : Nat := 0
  replacements : Nat := 0
  removed_sidecars : Nat := 0
  renamed_sidecars : Nat := 0
deriving DecidableEq

/-- Directory-processing state: the directory's files plus the accumulated
action log and counters. -/
structure PState where
  fs : FS
  actions : List LogEntry := []
  counters : Counters := {}
deriving DecidableEq

/-- `vaction`: append one entry to the action log (`[DRY]` when previewing,
`[DO ]` when applying); the entry is recorded in both modes. -/
def addAction (st : PState) (dry_run : Bool) (msg : String) : PState :=
  { st with actions := st.actions ++ [⟨dry_run, msg⟩] }

/-- `ACTION_PREFIX_WIDTH` left-justified formatting `"{:{w}}".format(s)`. -/
def padTo (s : String) (w : Nat) : String :=
  s ++ String.mk (List.replicate (w - s.length) ' ')

/-!  ## Checksum grouping and survivor selection -/

/-- `dict.setdefault(h, []).append(fn)` over an insertion-ordered map. -/
def addToGroup {κ : Type} [BEq κ] (m : List (κ × List String)) (k : κ) (v : String) :
    List (κ × List String) :=
  match m with
  | [] => [(k, [v])]
  | (k', g) :: rest =>
    if k' == k then (k', g ++ [v]) :: rest else (k', g) :: addToGroup rest k v

/-- Lookup in an insertion-ordered map (`dict[k]` / `k in dict`). -/
def lookupKey {κ : Type} [BEq κ] {β : Type} (m : List (κ × β)) (k : κ) : Option β :=
  match m with
  | [] => none
  | (k', v) :: rest => if k' == k then some v else lookupKey rest k

/-- Python `max` over a list of numbers, `None` (a `ValueError`) on `[]`. -/
def pyListMax : List Int → Option Int
  | [] => none
  | x :: xs => some (xs.foldl max x)

/-- `choose_preferred_by_mtime(paths)`: the newest file; among several files
sharing the maximal mtime, `sorted(candidates)[0]`.  The mtime lookup
(`file_mtime`) is a parameter; `none` models the `ValueError` raised on an
empty list. -/
def choose_preferred_by_mtime (mtimeF : String → Int) (paths : List String) :
    Option String :=
  match pyListMax (paths.map mtimeF) with
  | none => none
  | some max_mtime =>
    let candidates := paths.filter (fun p => mtimeF p == max_mtime)
    if candidates.length == 1 then candidates.head?
    else (sortedStrings candidates).head?

/-!  ## Canonical renaming -/

/-- The suffixed candidate `f"{base_name} - {suffix}{ext}"`. -/
def suffix_candidate (base_name ext : String) (suffix : Nat) : String :=
  base_name ++ " - " ++ toString suffix ++ ext

/-- The `while True` loop of `unique_target_path`, with fuel: try
`f"{base_name} - {suffix}{ext}"` for `suffix = start, start+1, ...` until a
free name is found.  The fuel `fs.length + 1` always suffices: the
candidates are pairwise distinct and the directory holds `fs.length`
names. -/
def unique_target_path_loop (fs : FS) (base_name ext : String) : Nat → Nat → Option String
  | 0, _ => none
  | fuel + 1, suffix =>
    let candidate := suffix_candidate base_name ext suffix
    if FS.hasFile fs candidate then unique_target_path_loop fs base_name ext fuel (suffix + 1)
    else some candidate

/-- `unique_target_path(base_dir, base_name, ext)`: the plain
`base_name + ext` when free, else the first free `base_name - N + ext` with
`N = 1, 2, ...`.  (The fuel-exhausted fallback is unreachable.) -/
def unique_target_path (fs : FS) (base_name ext : String) : String :=
  let candidate := base_name ++ ext
  if !(FS.hasFile fs candidate) then candidate
  else (unique_target_path_loop fs base_name ext (fs.length + 1) 1).getD candidate



/-!  ## Global configuration -/

/-- The module-level configuration globals (defaults as in the source;
extension sets become lists used only through membership). -/
structure Globals where
  PDF_EXTS : List String := [".pdf"]
  AUX_EXTS : List String := [".cue"]
  SIDECAR_EXTS : List String := [".lrc", ".txt"]
  SIDECAR_PREFIXES : List String :=
    ["cover", "albumart", "folder", "front", "back", "poster"]
  IGNORE_NO_SPACE : Bool := true
  DRY_RUN_DEFAULT : Bool := true
  RECURSIVE_DEFAULT : Bool := true
deriving DecidableEq

/-- The metadata dictionary built by `read_pdf_metadata`: optional `Title`
and `Author` entries (`none` = key absent). -/
structure PdfMeta where
  title : Option String := none
  author : Option String := none

/-- Python truthiness of `meta.get(key)`: present and non-empty. -/
def truthyOpt : Option String → Bool
  | none => false
  | some s => !(s == "")

/-- `os.path.splitext(f)[1]` (extension with its original case). -/
def ext_of (f : String) : String := String.mk (splitext f.data).2

/-- `os.path.splitext(f)[1].lower()`. -/
def lower_ext (f : String) : String := asciiLower (ext_of f)

/-!  ## `process_aux_files` (PDF / CUE pass) -/

/-- The inner removal loop body of `process_aux_files`'s survivor selection:
a non-preferred group member is counted, logged and — unless previewing —
removed. -/
def remove_dup_step (dry_run : Bool) (newest_name : String) (st : PState) (g : String) :
    PState :=
  if g == newest_name then st
  else
    let st := { st with counters :=
      { st.counters with removed_duplicates := st.counters.removed_duplicates + 1 } }
    let st := addAction st dry_run ("Remove duplicate (checksum) " ++ g)
    if dry_run then st else { st with fs := FS.remove st.fs g }

/-- The survivor-selection loop body of `process_aux_files`, for one
checksum group: a singleton survives as is; in a larger group the preferred
file (`choose_preferred_by_mtime`) survives and every other member is
counted, logged and (when applying) removed.  `mtimeF` is the mtime lookup
in force when the group is processed. -/
def process_group (mtimeF : String → Int) (dry_run : Bool)
    (acc : PState × List String) (group : List String) : PState × List String :=
  let st := acc.1
  let survivors := acc.2
  if group.length == 1 then (st, survivors ++ group.take 1)
  else
    match choose_preferred_by_mtime mtimeF group with
    | none => (st, survivors)  -- unreachable: every checksum group is nonempty
    | some newest_name =>
      (group.foldl (remove_dup_step dry_run newest_name) st, survivors ++ [newest_name])

/-- A surviving file's record in `info_list`: path (here: name), metadata
and mtime. -/
structure InfoRec where
  path : String
  meta : PdfMeta
  mtime : Int

/-- `rename(base_name, dirpath, dry_run, ext, src, ...)`: pick a collision
free target via `unique_target_path`, count and log the rename, and apply it
with `os.replace` unless previewing. -/
def rename (g : Globals) (base_name : String) (dry_run : Bool) (ext src : String)
    (st : PState) : PState :=
  let target_full := unique_target_path st.fs base_name ext
  let st := { st with counters := { st.counters with renames := st.counters.renames + 1 } }
  let label :=
    if g.AUX_EXTS.contains ext || g.PDF_EXTS.contains ext then
      padTo "Rename Album Related:" 22
    else padTo "Rename Audio:" 22
  let st := addAction st dry_run (label ++ "[" ++ src ++ "] -> [" ++ target_full ++ "]")
  if dry_run then st else { st with fs := FS.replace st.fs src target_full }

/-- The files of `files` whose lowercased extension is in `exts`
(the `selected` list of `process_aux_files`). -/
def aux_selected (exts : List String) (files : List String) : List String :=
  files.filter (fun f => exts.contains (lower_ext f))

/-- The metadata attached to a survivor:
`read_pdf_metadata(p) if use_pdf_meta else {}`. -/
def aux_meta_of (pdf_meta : String → PdfMeta) (use_pdf_meta : Bool) (p : String) : PdfMeta :=
  if use_pdf_meta then pdf_meta p else {}

/-- Whether a survivor is named from metadata:
`use_pdf_meta and (meta.get('Title') or meta.get('Author'))`. -/
def aux_uses_meta (use_pdf_meta : Bool) (meta : PdfMeta) : Bool :=
  use_pdf_meta && (truthyOpt meta.title || truthyOpt meta.author)

/-- The base name assigned to a survivor: `folder_name` joined with the
sanitized author and title when metadata naming applies, else plainly
`folder_name`. -/
def aux_base_name (folder_name : String) (use_pdf_meta : Bool) (meta : PdfMeta) : String :=
  if aux_uses_meta use_pdf_meta meta then
    let parts := [folder_name]
      ++ (match meta.author with
          | some a => if a == "" then [] else [sanitize_filename_component a]
          | none => [])
      ++ (match meta.title with
          | some t => if t == "" then [] else [sanitize_filename_component t]
          | none => [])
    String.intercalate " - " parts
  else folder_name

/-- Ascending stable sort by mtime (`sorted(standard_named, key=mtime)`). -/
def insertByMtime (x : InfoRec) : List InfoRec → List InfoRec
  | [] => [x]
  | y :: ys => if x.mtime < y.mtime then x :: y :: ys else y :: insertByMtime x ys

/-- Stable ascending mtime sort: elements are inserted left to right, each
after the existing elements with an equal key (Python `sorted` is stable). -/
def sortByMtime (l : List InfoRec) : List InfoRec :=
  l.foldl (fun acc x => insertByMtime x acc) []

/-- One step of the checksum-map construction: a readable file joins the
group of its hash (`checksum_map.setdefault(h, []).append(fn)`); an
unreadable one is warned about and excluded. -/
def hash_group_step (hashF : String → Option Nat) (m : List (Nat × List String))
    (fn : String) : List (Nat × List String) :=
  match hashF fn with
  | none => m
  | some h => addToGroup m h fn

/-- The checksum map of `process_aux_files`. -/
def aux_checksum_map (fs : FS) (selected : List String) : List (Nat × List String) :=
  selected.foldl (hash_group_step (FS.hash fs)) []

/-- The survivor-selection fold of `process_aux_files` over the checksum
map's groups. -/
def aux_dedup (dry_run : Bool) (stInit : PState) (cmap : List (Nat × List String)) :
    PState × List String :=
  cmap.foldl (fun acc hg => process_group (FS.mtime acc.1.fs) dry_run acc hg.2)
    (stInit, [])

/-- `info_list`: each survivor with its metadata and mtime. -/
def aux_info_list (pdf_meta : String → PdfMeta) (use_pdf_meta : Bool) (fs : FS)
    (survivors : List String) : List InfoRec :=
  survivors.map (fun s =>
    { path := s, meta := aux_meta_of pdf_meta use_pdf_meta s, mtime := FS.mtime fs s })

/-- The metadata-named rename loop body of `process_aux_files`: skip when
the file already bears its unsuffixed candidate name (INFO only), else
rename. -/
def meta_rename_step (g : Globals) (folder_name : String) (use_pdf_meta : Bool)
    (dry_run : Bool) (st : PState) (info : InfoRec) : PState :=
  let base_name := aux_base_name folder_name use_pdf_meta info.meta
  let ext := lower_ext info.path
  let src := info.path
  if src == base_name ++ ext then st  -- INFO "remains as", no action
  else rename g base_name dry_run ext src st

/-- The standard-named rename loop body of `process_aux_files` (the
source's `idx` counter is written but never read). -/
def std_rename_step (g : Globals) (folder_name : String) (dry_run : Bool)
    (st : PState) (info : InfoRec) : PState :=
  let ext := lower_ext info.path
  let src := info.path
  if src == folder_name ++ ext then st  -- INFO "remains as", no action
  else rename g folder_name dry_run ext src st

/-- `process_aux_files(dirpath, files, exts, use_pdf_meta, dry_run, ...)`:
checksum-deduplicate the files of the category, then give every survivor a
canonical name — metadata-named files first, then the standard-named ones in
ascending mtime order.  (The source partitions `info_list` into
`meta_named` — paired with its base name, recomputed here by
`aux_base_name` — and `standard_named` in one pass; the two filters produce
the same lists in the same order.) -/
def process_aux_files (g : Globals) (pdf_meta : String → PdfMeta) (folder_name : String)
    (files : List String) (exts : List String) (use_pdf_meta : Bool) (dry_run : Bool)
    (st : PState) : PState :=
  let selected := aux_selected exts files
  if selected.isEmpty then st
  else
    let checksum_map := aux_checksum_map st.fs selected
    let ds := aux_dedup dry_run st checksum_map
    let st := ds.1
    let survivors := ds.2
    let info_list := aux_info_list pdf_meta use_pdf_meta st.fs survivors
    let meta_named := info_list.filter (fun i => aux_uses_meta use_pdf_meta i.meta)
    let standard_named := info_list.filter (fun i => !(aux_uses_meta use_pdf_meta i.meta))
    let st := meta_named.foldl (meta_rename_step g folder_name use_pdf_meta dry_run) st
    (sortByMtime standard_named).foldl (std_rename_step g folder_name dry_run) st

/-!  ## `dedupe_non_pdf_by_checksum` and the audio/sidecar pass -/

/-- The inner removal loop body of `dedupe_non_pdf_by_checksum` (log text
with brackets; the counter was already bumped for the whole group). -/
def remove_dup_bracket_step (dry_run : Bool) (newest_name : String) (st : PState)
    (gf : String) : PState :=
  if gf == newest_name then st
  else
    let st := addAction st dry_run ("Remove duplicate (checksum) [" ++ gf ++ "]")
    if dry_run then st else { st with fs := FS.remove st.fs gf }

/-- The per-group body of `dedupe_non_pdf_by_checksum`: groups of two or
more lose every non-preferred member. -/
def dedupe_group_step (dry_run : Bool) (st : PState) (hg : Nat × List String) : PState :=
  if hg.2.length ≤ 1 then st
  else
    match choose_preferred_by_mtime (FS.mtime st.fs) hg.2 with
    | none => st  -- unreachable: groups are nonempty
    | some newest_name =>
      let st := { st with counters := { st.counters with
        removed_duplicates := st.counters.removed_duplicates + (hg.2.length - 1) } }
      hg.2.foldl (remove_dup_bracket_step dry_run newest_name) st

/-- `dedupe_non_pdf_by_checksum(dirpath, files, dry_run, ...)`: checksum
dedup over the files that are neither PDF/AUX/sidecar-by-extension nor
sidecar-by-prefix; returns the new state and the re-listed directory. -/
def dedupe_non_pdf_by_checksum (g : Globals) (files : List String) (dry_run : Bool)
    (st : PState) : PState × List String :=
  let excluded := g.PDF_EXTS ++ g.AUX_EXTS ++ g.SIDECAR_EXTS
  let candidates := files.filter (fun f =>
    !(excluded.contains (lower_ext f)) && !( is_sidecar_by_prefix g.SIDECAR_PREFIXES f))
  let checksum_map : List (Nat × List String) :=
    candidates.foldl (fun m fn =>
      if !(FS.hasFile st.fs fn) then m  -- os.path.isfile re-check
      else hash_group_step (FS.hash st.fs) m fn) []
  let st := checksum_map.foldl (dedupe_group_step dry_run) st
  (st, FS.listdir st.fs)

/-- The body of the sidecar loop of `process_audio_and_sidecars`, for one
candidate file `f`: parse its track number, find the canonical audio file of
that track, aim at `<canonical stem><original extension>` and resolve the
conflict at the target (skip / replace-older / delete / rename). -/
def handle_sidecar (g : Globals) (dry_run : Bool)
    (canonical_by_track : List (Nat × String)) (st : PState) (f : String) : PState :=
  match extract_track_info g.IGNORE_NO_SPACE f with
  | none => st  -- INFO: no track pattern
  | some (track, _) =>
    match lookupKey canonical_by_track track with
    | none => st  -- INFO: no canonical audio file for this track
    | some canonical_audio =>
      let target_base := String.mk (splitext canonical_audio.data).1
      let ext := ext_of f  -- extension case preserved from the source file
      let target_name := target_base ++ ext
      let src := f
      let target := target_name
      if src == target then st  -- INFO: already has the target name
      else if FS.hasFile st.fs target then
        if FS.mtime st.fs target < FS.mtime st.fs src then
          let st := { st with counters :=
            { st.counters with replacements := st.counters.replacements + 1 } }
          let st := addAction st dry_run
            ("Replace older target [" ++ target ++ "] with [" ++ f ++ "]")
          if dry_run then st else { st with fs := FS.replace st.fs src target }
        else
          let st := { st with counters :=
            { st.counters with removed_sidecars := st.counters.removed_sidecars + 1 } }
          let st := addAction st dry_run
            (padTo "Delete Sidecar:" 22 ++ "[" ++ f ++ "], newer target [" ++ target ++ "]")
          if dry_run then st else { st with fs := FS.remove st.fs src }
      else
        let st := { st with counters :=
          { st.counters with renamed_sidecars := st.counters.renamed_sidecars + 1 } }
        let st := addAction st dry_run
          (padTo "Rename Sidecar:" 22 ++ "[" ++ f ++ "] -> [" ++ target_name ++ "]")
        if dry_run then st else { st with fs := FS.replace st.fs src target }

/-- `process_audio_and_sidecars(dirpath, files, dry_run, ...)`: checksum
dedup of the generic files, classification into audio and sidecar/other
candidates, selection of one canonical audio file per parsed track number,
then sidecar retargeting.  `is_audio` is the MIME probe. -/
def process_audio_and_sidecars (g : Globals) (is_audio : String → Bool)
    (files : List String) (dry_run : Bool) (st : PState) : PState :=
  let stFiles := dedupe_non_pdf_by_checksum g files dry_run st
  let st := stFiles.1
  let files_after_dedupe := stFiles.2
  let classified := files_after_dedupe.foldl (fun (acc : List String × List String) fn =>
    if !(FS.hasFile st.fs fn) then acc
    else if (g.PDF_EXTS ++ g.AUX_EXTS).contains (lower_ext fn) then acc
    else if g.SIDECAR_EXTS.contains (lower_ext fn) ||
        is_sidecar_by_prefix g.SIDECAR_PREFIXES fn then
      (acc.1, acc.2 ++ [fn])
    else if g.IGNORE_NO_SPACE && !(fn.data.contains ' ') then acc  -- INFO: ignored
    else if is_audio fn then (acc.1 ++ [fn], acc.2)
    else (acc.1, acc.2 ++ [fn])) ([], [])
  let audio_files := classified.1
  let other_files := classified.2
  let track_map : List (Nat × List String) := audio_files.foldl (fun m a =>
    match extract_track_info g.IGNORE_NO_SPACE a with
    | none => m  -- INFO: audio without track pattern
    | some (track, _) => addToGroup m track a) []
  let canonical_by_track : List (Nat × String) := track_map.foldl (fun cmap tg =>
    match choose_preferred_by_mtime (FS.mtime st.fs) tg.2 with
    | none => cmap  -- unreachable: track groups are nonempty
    | some preferred =>
      -- to_keep = {preferred}; remaining = [preferred] is never empty, so the
      -- `if not remaining` fallback re-selects from the same singleton
      match choose_preferred_by_mtime (FS.mtime st.fs) [preferred] with
      | none => cmap
      | some chosen => cmap ++ [(tg.1, chosen)]) []
  other_files.foldl (handle_sidecar g dry_run canonical_by_track) st

/-- `process_directory(dirpath, dry_run, ...)`: list the directory, then run
the PDF pass, the AUX pass and the audio/sidecar pass, re-listing between
passes. -/
def process_directory (g : Globals) (pdf_meta : String → PdfMeta)
    (is_audio : String → Bool) (folder_name : String) (dry_run : Bool)
    (st : PState) : PState :=
  let files := FS.listdir st.fs
  if files.isEmpty then st  -- INFO: no files in this directory
  else
    let st := process_aux_files g pdf_meta folder_name files g.PDF_EXTS true dry_run st
    let files := FS.listdir st.fs
    let st := process_aux_files g pdf_meta folder_name files g.AUX_EXTS false dry_run st
    let files := FS.listdir st.fs
    process_audio_and_sidecars g is_audio files dry_run st

/-!  ## Configuration merge and the `main` flag wiring -/

/-- A parsed TOML value of the kinds `merge_config_into_globals` inspects
(`isinstance(v, bool)`, `isinstance(v, list)`); list values are modelled as
lists of strings, other value kinds as `otherV`. -/
inductive TomlVal where
  | boolV : Bool → TomlVal
  | listV : List String → TomlVal
  | otherV : TomlVal
deriving DecidableEq

/-- A parsed TOML table. -/
abbrev TomlDict := List (String × TomlVal)

/-- `merge_config_into_globals(cfg)`: each recognized key overwrites its
global when present with the right type; extension lists and prefixes are
lowercased on merge. -/
def merge_config_into_globals (cfg : TomlDict) (g : Globals) : Globals :=
  let g := match lookupKey cfg "ignore_no_space" with
    | some (.boolV b) => { g with IGNORE_NO_SPACE := b }
    | _ => g
  let g := match lookupKey cfg "dry_run_default" with
    | some (.boolV b) => { g with DRY_RUN_DEFAULT := b }
    | _ => g
  let g := match lookupKey cfg "recursive_default" with
    | some (.boolV b) => { g with RECURSIVE_DEFAULT := b }
    | _ => g
  let g := match lookupKey cfg "pdf_exts" with
    | some (.listV l) => { g with PDF_EXTS := l.map asciiLower }
    | _ => g
  let g := match lookupKey cfg "aux_exts" with
    | some (.listV l) => { g with AUX_EXTS := l.map asciiLower }
    | _ => g
  let g := match lookupKey cfg "sidecar_exts" with
    | some (.listV l) => { g with SIDECAR_EXTS := l.map asciiLower }
    | _ => g
  match lookupKey cfg "sidecar_prefixes" with
  | some (.listV l) => { g with SIDECAR_PREFIXES := l.map asciiLower }
  | _ => g

/-- The flag wiring of `main()`: `dry_run = not args.force` and
`recursive = args.recursive` are read from the CLI arguments alone (lines
788–790) before the configuration is loaded and merged (lines 793–798), and
neither is recomputed afterwards; the merged globals are returned alongside.
Returns `(recursive, dry_run, merged globals)`. -/
def main_flags (args_recursive args_force : Bool) (cfg : TomlDict) :
    Bool × Bool × Globals :=
  let dry_run := !args_force
  let recursive := args_recursive
  let g := merge_config_into_globals cfg {}
  (recursive, dry_run, g)

def c1mt : String → Int := fun q => if q = "b.cue" then 2 else 1

def c1group : List String := ["a.cue", "b.cue"]

def c1st : PState := ⟨[("a.cue", ⟨some 5, 1⟩), ("b.cue", ⟨some 5, 2⟩)], [], {}⟩

/-- The dry-run invariant: the filesystem is untouched and every logged
action is flagged as previewed. -/
def DryOK (fs0 : FS) (st : PState) : Prop :=
  st.fs = fs0 ∧ st.actions.all (fun a => a.dry) = true

def c3fs : FS := [("Album.pdf", ⟨some 1, 1⟩)]

def c3fsW : FS := [("Album.pdf", ⟨some 1, 1⟩), ("Album - 1.pdf", ⟨some 2, 2⟩)]

/-- The target name a sidecar is steered to: the canonical audio file's stem
with the sidecar's own extension (case preserved). -/
def sidecar_target (canonical_audio f : String) : String :=
  String.mk (splitext canonical_audio.data).1 ++ ext_of f

def c4st : PState := ⟨[("01 lyric.lrc", ⟨some 9, 5⟩), ("01 Track.flac", ⟨some 1, 9⟩)], [], {}⟩

def c4map : List (Nat × String) := [(1, "01 Track.flac")]

/-- The sidecar-prefix criterion as the specification words it: the
lowercased stem equals the (lowercased) configured prefix, or starts with it
followed immediately by a space, hyphen, underscore or dot, or starts with
it followed by a non-alphabetic character when the stem is strictly longer
than the prefix. -/
def SidecarPrefixSpec (sidecar_prefixes : List String) (filename : String) : Prop :=
  ∃ pw ∈ sidecar_prefixes,
    (splitext filename.data).1.map Char.toLower = pw.data.map Char.toLower ∨
    ((pw.data.map Char.toLower ++ [' ']) <+: (splitext filename.data).1.map Char.toLower ∨
     (pw.data.map Char.toLower ++ ['-']) <+: (splitext filename.data).1.map Char.toLower ∨
     (pw.data.map Char.toLower ++ ['_']) <+: (splitext filename.data).1.map Char.toLower ∨
     (pw.data.map Char.toLower ++ ['.']) <+: (splitext filename.data).1.map Char.toLower) ∨
    (pw.data.map Char.toLower <+: (splitext filename.data).1.map Char.toLower ∧
     (pw.data.map Char.toLower).length < ((splitext filename.data).1.map Char.toLower).length ∧
     isAsciiAlpha (((splitext filename.data).1.map Char.toLower).getD
       (pw.data.map Char.toLower).length ' ') = false)

def c5stW : PState := ⟨[("Album.pdf", ⟨some 1, 5⟩)], [], {}⟩

def c5fs : FS := [("a.pdf", ⟨some 1, 1⟩), ("b.pdf", ⟨some 2, 2⟩)]

def c5meta : String → PdfMeta := fun _ => {}

def c5audio : String → Bool := fun _ => false

def c5run1 : PState := process_directory {} c5meta c5audio "Album" false ⟨c5fs, [], {}⟩

def c5run2 : PState := process_directory {} c5meta c5audio "Album" false ⟨c5run1.fs, [], {}⟩

/-!  # Lemmas

Elementary facts about the Python string order, the ascending sort, and the
survivor-selection function. -/

theorem strLtL_irrefl (l : List Char) : strLtL l l = false := by
  induction l with
  | nil => rfl
  | cons c rest ih => simp [strLtL, ih]

theorem strLtL_asymm : ∀ {a b : List Char}, strLtL a b = true → strLtL b a = false
  | [], [], h => by simp [strLtL] at h
  | [], _ :: _, _ => by simp [strLtL]
  | _ :: _, [], h => by simp [strLtL] at h
  | x :: xs, y :: ys, h => by
    simp only [strLtL] at h ⊢
    by_cases h1 : x.toNat < y.toNat
    · have h2 : ¬ y.toNat < x.toNat := by omega
      simp [h1, h2]
    · by_cases h2 : y.toNat < x.toNat
      · simp [h1, h2] at h
      · simp only [h1, h2, if_false] at h ⊢
        exact strLtL_asymm h

theorem strLtL_cotrans : ∀ {c a : List Char}, strLtL c a = true →
    ∀ (b : List Char), strLtL c b = true ∨ strLtL b a = true
  | [], [], h, _ => by simp [strLtL] at h
  | [], _ :: _, _, b => by
    cases b with
    | nil => right; simp [strLtL]
    | cons y ys => left; simp [strLtL]
  | _ :: _, [], h, _ => by simp [strLtL] at h
  | c :: cs, a :: as, h, b => by
    cases b with
    | nil => right; simp [strLtL]
    | cons y ys =>
      simp only [strLtL] at h ⊢
      by_cases hca : c.toNat < a.toNat
      · by_cases hcy : c.toNat < y.toNat
        · left; simp [hcy]
        · right
          have hya : y.toNat < a.toNat := by omega
          simp [hya]
      · by_cases hac : a.toNat < c.toNat
        · simp [hca, hac] at h
        · -- heads of c and a are code-point equal
          simp only [hca, hac, if_false] at h
          by_cases hcy : c.toNat < y.toNat
          · left; simp [hcy]
          · by_cases hyc : y.toNat < c.toNat
            · right
              have hya : y.toNat < a.toNat := by omega
              simp [hya]
            · -- all three heads code-point equal: recurse on the tails
              have hya : ¬ y.toNat < a.toNat := by omega
              have hay : ¬ a.toNat < y.toNat := by omega
              rcases strLtL_cotrans h ys with htail | htail
              · left; simp [hcy, hyc, htail]
              · right; simp [hya, hay, htail]

theorem strLe_refl (a : String) : strLe a a = true := by
  simp [strLe, strLtL_irrefl]

theorem strLe_total (a b : String) : strLe a b = true ∨ strLe b a = true := by
  cases hb : strLtL b.data a.data with
  | true => right; simp [strLe, strLtL_asymm hb]
  | false => left; simp [strLe, hb]

theorem strLe_trans {a b c : String} (h1 : strLe a b = true) (h2 : strLe b c = true) :
    strLe a c = true := by
  simp only [strLe, Bool.not_eq_true'] at h1 h2 ⊢
  cases hx : strLtL c.data a.data with
  | false => rfl
  | true =>
    rcases strLtL_cotrans hx b.data with ht | ht
    · rw [h2] at ht; exact absurd ht (by simp)
    · rw [h1] at ht; exact absurd ht (by simp)

theorem mem_insertLe (y x : String) (l : List String) :
    y ∈ insertLe x l ↔ y = x ∨ y ∈ l := by
  induction l with
  | nil => simp [insertLe]
  | cons z zs ih =>
    simp only [insertLe]
    split
    · simp [List.mem_cons]
    · simp only [List.mem_cons, ih]
      tauto

theorem mem_sortedStrings (y : String) (l : List String) :
    y ∈ sortedStrings l ↔ y ∈ l := by
  induction l with
  | nil => simp [sortedStrings]
  | cons x xs ih => simp [sortedStrings, mem_insertLe, ih]

theorem sortedStrings_head_min (l : List String) :
    ∀ x rest, sortedStrings l = x :: rest → x ∈ l ∧ ∀ y ∈ l, strLe x y = true := by
  induction l with
  | nil => intro x rest h; simp [sortedStrings] at h
  | cons a as ih =>
    intro x rest h
    simp only [sortedStrings] at h
    cases hs : sortedStrings as with
    | nil =>
      rw [hs] at h
      simp only [insertLe] at h
      injection h with h1 h2
      subst h1
      refine ⟨List.mem_cons_self _ _, ?_⟩
      intro y hy
      rcases List.mem_cons.mp hy with rfl | hy'
      · exact strLe_refl _
      · have hmem := (mem_sortedStrings y as).mpr hy'
        rw [hs] at hmem
        simp at hmem
    | cons z zs =>
      rw [hs] at h
      simp only [insertLe] at h
      split at h
      · next hle =>
        injection h with h1 h2
        subst h1
        obtain ⟨hz, hmin⟩ := ih z zs hs
        refine ⟨List.mem_cons_self _ _, ?_⟩
        intro y hy
        rcases List.mem_cons.mp hy with rfl | hy'
        · exact strLe_refl _
        · exact strLe_trans hle (hmin y hy')
      · next hnle =>
        injection h with h1 h2
        subst h1
        obtain ⟨hz, hmin⟩ := ih z zs hs
        refine ⟨List.mem_cons_of_mem _ hz, ?_⟩
        intro y hy
        rcases List.mem_cons.mp hy with hya | hy'
        · rw [hya]
          rcases strLe_total z a with ht | ht
          · exact ht
          · exact absurd ht hnle
        · exact hmin y hy'

theorem foldl_max_spec (l : List Int) (a : Int) :
    a ≤ l.foldl max a ∧ (l.foldl max a = a ∨ l.foldl max a ∈ l) ∧
      ∀ x ∈ l, x ≤ l.foldl max a := by
  induction l generalizing a with
  | nil => simp
  | cons x xs ih =>
    simp only [List.foldl_cons]
    obtain ⟨h1, h2, h3⟩ := ih (max a x)
    refine ⟨le_trans (le_max_left a x) h1, ?_, ?_⟩
    · rcases h2 with h | h
      · rcases max_choice a x with hm | hm
        · left; rw [h, hm]
        · right; rw [h, hm]; exact List.mem_cons_self _ _
      · right; exact List.mem_cons_of_mem _ h
    · intro y hy
      rcases List.mem_cons.mp hy with rfl | hy'
      · exact le_trans (le_max_right a y) h1
      · exact h3 y hy'

theorem pyListMax_spec (l : List Int) (m : Int) (h : pyListMax l = some m) :
    m ∈ l ∧ ∀ x ∈ l, x ≤ m := by
  cases l with
  | nil => simp [pyListMax] at h
  | cons x xs =>
    simp only [pyListMax, Option.some.injEq] at h
    subst h
    obtain ⟨h1, h2, h3⟩ := foldl_max_spec xs x
    constructor
    · rcases h2 with h | h
      · rw [h]; exact List.mem_cons_self _ _
      · exact List.mem_cons_of_mem _ h
    · intro y hy
      rcases List.mem_cons.mp hy with rfl | hy'
      · exact h1
      · exact h3 y hy'

theorem choose_preferred_spec (mtimeF : String → Int) (paths : List String) (s : String)
    (h : choose_preferred_by_mtime mtimeF paths = some s) :
    s ∈ paths ∧ (∀ p ∈ paths, mtimeF p ≤ mtimeF s) ∧
      (∀ p ∈ paths, mtimeF p = mtimeF s → strLe s p = true) := by
  unfold choose_preferred_by_mtime at h
  cases hm : pyListMax (paths.map mtimeF) with
  | none => rw [hm] at h; simp at h
  | some m =>
    rw [hm] at h
    obtain ⟨hmem, hmax⟩ := pyListMax_spec _ _ hm
    simp only at h
    have hsmem : s ∈ paths.filter (fun p => mtimeF p == m) ∧
        (∀ p ∈ paths.filter (fun p => mtimeF p == m), strLe s p = true) := by
      split at h
      · next hone =>
        cases hc : paths.filter (fun p => mtimeF p == m) with
        | nil => rw [hc] at h; simp at h
        | cons c cs =>
          rw [hc] at h
          simp only [List.head?_cons, Option.some.injEq] at h
          subst h
          rw [hc] at hone
          simp only [List.length_cons, beq_iff_eq] at hone
          have hcs : cs = [] := by
            cases cs with
            | nil => rfl
            | cons _ _ => simp at hone
          subst hcs
          exact ⟨List.mem_cons_self _ _, by
            intro p hp
            rcases List.mem_cons.mp hp with rfl | hp'
            · exact strLe_refl _
            · simp at hp'⟩
      · next hone =>
        cases hss : sortedStrings (paths.filter (fun p => mtimeF p == m)) with
        | nil => rw [hss] at h; simp at h
        | cons x rest =>
          rw [hss] at h
          simp only [List.head?_cons, Option.some.injEq] at h
          subst h
          obtain ⟨hxmem, hxmin⟩ := sortedStrings_head_min _ _ _ hss
          exact ⟨hxmem, hxmin⟩
    obtain ⟨hsf, hsmin⟩ := hsmem
    have hsp : s ∈ paths ∧ mtimeF s = m := by
      have := List.mem_filter.mp hsf
      exact ⟨this.1, by simpa using this.2⟩
    refine ⟨hsp.1, ?_, ?_⟩
    · intro p hp
      rw [hsp.2]
      exact hmax _ (List.mem_map_of_mem mtimeF hp)
    · intro p hp hpm
      refine hsmin p (List.mem_filter.mpr ⟨hp, ?_⟩)
      simp [hpm, hsp.2]

theorem choose_preferred_none_iff (mtimeF : String → Int) (paths : List String) :
    choose_preferred_by_mtime mtimeF paths = none ↔ paths = [] := by
  constructor
  · intro h
    cases hp : paths with
    | nil => rfl
    | cons p ps =>
      exfalso
      subst hp
      unfold choose_preferred_by_mtime at h
      cases hm : pyListMax ((p :: ps).map mtimeF) with
      | none => simp [pyListMax] at hm
      | some m =>
        rw [hm] at h
        obtain ⟨hmem, -⟩ := pyListMax_spec _ _ hm
        obtain ⟨q, hq, hqm⟩ := List.mem_map.mp hmem
        have hqf : q ∈ (p :: ps).filter (fun r => mtimeF r == m) :=
          List.mem_filter.mpr ⟨hq, by simp [hqm]⟩
        simp only at h
        split at h
        · cases hc : (p :: ps).filter (fun r => mtimeF r == m) with
          | nil => rw [hc] at hqf; simp at hqf
          | cons c cs => rw [hc] at h; simp at h
        · have hqs := (mem_sortedStrings q _).mpr hqf
          cases hss : sortedStrings ((p :: ps).filter (fun r => mtimeF r == m)) with
          | nil => rw [hss] at hqs; simp at hqs
          | cons x rest => rw [hss] at h; simp at h
  · rintro rfl; rfl

theorem remove_dup_fold (dry_run : Bool) (s : String) (l : List String) :
    ∀ st : PState,
      (l.foldl (remove_dup_step dry_run s) st).actions =
        st.actions ++ (l.filter (fun p => !(p == s))).map
          (fun p => (⟨dry_run, "Remove duplicate (checksum) " ++ p⟩ : LogEntry)) ∧
      (l.foldl (remove_dup_step dry_run s) st).fs =
        (if dry_run then st.fs
         else (l.filter (fun p => !(p == s))).foldl FS.remove st.fs) := by
  induction l with
  | nil => intro st; simp
  | cons c cs ih =>
    intro st
    by_cases hc : (c == s) = true
    · have h1 : remove_dup_step dry_run s st c = st := by
        simp [remove_dup_step, hc]
      have h2 : (c :: cs).filter (fun p => !(p == s)) = cs.filter (fun p => !(p == s)) := by
        simp [List.filter_cons, hc]
      rw [List.foldl_cons, h1, h2]
      exact ih st
    · have hc' : (c == s) = false := by simpa using hc
      have h2 : (c :: cs).filter (fun p => !(p == s)) =
          c :: cs.filter (fun p => !(p == s)) := by
        simp [List.filter_cons, hc']
      have ha : (remove_dup_step dry_run s st c).actions =
          st.actions ++ [⟨dry_run, "Remove duplicate (checksum) " ++ c⟩] := by
        cases dry_run <;> simp [remove_dup_step, hc', addAction]
      have hf : (remove_dup_step dry_run s st c).fs =
          (if dry_run then st.fs else FS.remove st.fs c) := by
        cases dry_run <;> simp [remove_dup_step, hc', addAction]
      obtain ⟨iha, ihf⟩ := ih (remove_dup_step dry_run s st c)
      rw [List.foldl_cons, h2]
      constructor
      · rw [iha, ha]
        simp
      · rw [ihf, hf]
        cases dry_run with
        | true => simp
        | false => simp [List.foldl_cons]

/-- C1: in `process_aux_files`, a duplicate group of size at least two keeps
exactly the file selected by `choose_preferred_by_mtime` — a group member of
maximal modification time that is lexicographically least among the members
attaining that maximum — and schedules every other member for deletion (one
removal record each, executed unless previewing). -/
theorem C1_duplicate_group_survivor (mtimeF : String → Int) (dry_run : Bool)
    (st : PState) (survivors : List String) (group : List String) (s : String)
    (hlen : 2 ≤ group.length)
    (hs : choose_preferred_by_mtime mtimeF group = some s) :
    s ∈ group ∧
    (∀ p ∈ group, mtimeF p ≤ mtimeF s) ∧
    (∀ p ∈ group, mtimeF p = mtimeF s → strLe s p = true) ∧
    (process_group mtimeF dry_run (st, survivors) group).2 = survivors ++ [s] ∧
    (process_group mtimeF dry_run (st, survivors) group).1.actions =
      st.actions ++ (group.filter (fun p => !(p == s))).map
        (fun p => (⟨dry_run, "Remove duplicate (checksum) " ++ p⟩ : LogEntry)) ∧
    (process_group mtimeF dry_run (st, survivors) group).1.fs =
      (if dry_run then st.fs
       else (group.filter (fun p => !(p == s))).foldl FS.remove st.fs) := by
  obtain ⟨hmem, hmax, hlex⟩ := choose_preferred_spec mtimeF group s hs
  have hne : (group.length == 1) = false := by
    simp only [beq_eq_false_iff_ne]
    omega
  have hpg : process_group mtimeF dry_run (st, survivors) group =
      (group.foldl (remove_dup_step dry_run s) st, survivors ++ [s]) := by
    unfold process_group
    simp only [hne, Bool.false_eq_true, if_false, hs]
  obtain ⟨ha, hf⟩ := remove_dup_fold dry_run s group st
  rw [hpg]
  exact ⟨hmem, hmax, hlex, rfl, ha, hf⟩

theorem C1_witness :
    "b.cue" ∈ c1group ∧
    (∀ p ∈ c1group, c1mt p ≤ c1mt "b.cue") ∧
    (∀ p ∈ c1group, c1mt p = c1mt "b.cue" → strLe "b.cue" p = true) ∧
    (process_group c1mt true (c1st, []) c1group).2 = [] ++ ["b.cue"] ∧
    (process_group c1mt true (c1st, []) c1group).1.actions =
      c1st.actions ++ (c1group.filter (fun p => !(p == "b.cue"))).map
        (fun p => (⟨true, "Remove duplicate (checksum) " ++ p⟩ : LogEntry)) ∧
    (process_group c1mt true (c1st, []) c1group).1.fs =
      (if true then c1st.fs
       else (c1group.filter (fun p => !(p == "b.cue"))).foldl FS.remove c1st.fs) :=
  C1_duplicate_group_survivor c1mt true c1st [] c1group "b.cue" (by decide) (by decide)

/-- C10: `choose_preferred_by_mtime` fails (the `ValueError`, modelled as
`none`) exactly on the empty path list, and on every nonempty list returns
one of its elements. -/
theorem C10_choose_preferred_total (mtimeF : String → Int) (paths : List String) :
    (choose_preferred_by_mtime mtimeF paths = none ↔ paths = []) ∧
    ∀ s, choose_preferred_by_mtime mtimeF paths = some s → s ∈ paths :=
  ⟨choose_preferred_none_iff mtimeF paths,
   fun s h => (choose_preferred_spec mtimeF paths s h).1⟩

/-!  ## Dry-run invariance -/

theorem foldl_pres {α σ : Type _} (P : σ → Prop) (f : σ → α → σ)
    (h : ∀ s a, P s → P (f s a)) : ∀ (l : List α) (s : σ), P s → P (l.foldl f s) := by
  intro l
  induction l with
  | nil => intro s hs; exact hs
  | cons x xs ih => intro s hs; exact ih _ (h s x hs)

theorem dryOK_addAction {fs0 : FS} {st : PState} (msg : String) (h : DryOK fs0 st) :
    DryOK fs0 (addAction st true msg) := by
  obtain ⟨h1, h2⟩ := h
  exact ⟨h1, by simp [addAction, List.all_append, h2]⟩

theorem dry_remove_dup_step {fs0 : FS} (s gf : String) (st : PState) (h : DryOK fs0 st) :
    DryOK fs0 (remove_dup_step true s st gf) := by
  by_cases hg : (gf == s) = true
  · simpa [remove_dup_step, hg] using h
  · have hg' : (gf == s) = false := by simpa using hg
    simp only [remove_dup_step, hg', Bool.false_eq_true, if_false, if_true]
    exact dryOK_addAction _ h

theorem dry_process_group {fs0 : FS} (mtimeF : String → Int)
    (acc : PState × List String) (group : List String) (h : DryOK fs0 acc.1) :
    DryOK fs0 (process_group mtimeF true acc group).1 := by
  unfold process_group
  by_cases hl : (group.length == 1) = true
  · rw [if_pos hl]
    exact h
  · rw [if_neg hl]
    cases hc : choose_preferred_by_mtime mtimeF group with
    | none => exact h
    | some s =>
      exact foldl_pres (DryOK fs0) _ (fun st gf hst => dry_remove_dup_step s gf st hst)
        group acc.1 h

theorem dry_rename {fs0 : FS} (g : Globals) (base_name ext src : String) (st : PState)
    (h : DryOK fs0 st) : DryOK fs0 (rename g base_name true ext src st) := by
  simp only [rename, if_true]
  exact dryOK_addAction _ h

theorem dry_meta_rename_step {fs0 : FS} (g : Globals) (folder_name : String)
    (use_pdf_meta : Bool) (st : PState) (info : InfoRec) (h : DryOK fs0 st) :
    DryOK fs0 (meta_rename_step g folder_name use_pdf_meta true st info) := by
  unfold meta_rename_step
  dsimp only
  split
  · exact h
  · exact dry_rename _ _ _ _ _ h

theorem dry_std_rename_step {fs0 : FS} (g : Globals) (folder_name : String)
    (st : PState) (info : InfoRec) (h : DryOK fs0 st) :
    DryOK fs0 (std_rename_step g folder_name true st info) := by
  unfold std_rename_step
  dsimp only
  split
  · exact h
  · exact dry_rename _ _ _ _ _ h

theorem dry_process_aux_files {fs0 : FS} (g : Globals) (pdf_meta : String → PdfMeta)
    (folder_name : String) (files exts : List String) (use_pdf_meta : Bool)
    (st : PState) (h : DryOK fs0 st) :
    DryOK fs0 (process_aux_files g pdf_meta folder_name files exts use_pdf_meta true st) := by
  unfold process_aux_files
  dsimp only
  split
  · exact h
  · have hd : DryOK fs0 (aux_dedup true st (aux_checksum_map st.fs (aux_selected exts files))).1 := by
      unfold aux_dedup
      exact foldl_pres (fun acc : PState × List String => DryOK fs0 acc.1)
        _ (fun acc hg hacc => dry_process_group _ acc hg.2 hacc) _ (st, []) h
    refine foldl_pres (DryOK fs0) _
      (fun s i hs => dry_std_rename_step g folder_name s i hs) _ _ ?_
    exact foldl_pres (DryOK fs0) _
      (fun s i hs => dry_meta_rename_step g folder_name use_pdf_meta s i hs) _ _ hd

theorem dry_remove_dup_bracket_step {fs0 : FS} (s gf : String) (st : PState)
    (h : DryOK fs0 st) : DryOK fs0 (remove_dup_bracket_step true s st gf) := by
  by_cases hg : (gf == s) = true
  · simpa [remove_dup_bracket_step, hg] using h
  · have hg' : (gf == s) = false := by simpa using hg
    simp only [remove_dup_bracket_step, hg', Bool.false_eq_true, if_false, if_true]
    exact dryOK_addAction _ h

theorem dry_dedupe_group_step {fs0 : FS} (st : PState) (hg : Nat × List String)
    (h : DryOK fs0 st) : DryOK fs0 (dedupe_group_step true st hg) := by
  unfold dedupe_group_step
  split
  · exact h
  · cases hc : choose_preferred_by_mtime (FS.mtime st.fs) hg.2 with
    | none => exact h
    | some s =>
      exact foldl_pres (DryOK fs0) _
        (fun st' gf hst => dry_remove_dup_bracket_step s gf st' hst) _ _ h

theorem dry_dedupe_non_pdf {fs0 : FS} (g : Globals) (files : List String) (st : PState)
    (h : DryOK fs0 st) : DryOK fs0 (dedupe_non_pdf_by_checksum g files true st).1 := by
  unfold dedupe_non_pdf_by_checksum
  exact foldl_pres (DryOK fs0) _ (fun st' hg hst => dry_dedupe_group_step st' hg hst) _ _ h

theorem dry_handle_sidecar {fs0 : FS} (g : Globals)
    (cmap : List (Nat × String)) (st : PState) (f : String) (h : DryOK fs0 st) :
    DryOK fs0 (handle_sidecar g true cmap st f) := by
  unfold handle_sidecar
  cases hx : extract_track_info g.IGNORE_NO_SPACE f with
  | none => exact h
  | some ti =>
    obtain ⟨track, rest⟩ := ti
    dsimp only
    cases hy : lookupKey cmap track with
    | none => exact h
    | some can =>
      dsimp only
      split
      · exact h
      · split
        · split
          · exact dryOK_addAction _ h
          · exact dryOK_addAction _ h
        · exact dryOK_addAction _ h

theorem dry_process_audio {fs0 : FS} (g : Globals) (is_audio : String → Bool)
    (files : List String) (st : PState) (h : DryOK fs0 st) :
    DryOK fs0 (process_audio_and_sidecars g is_audio files true st) := by
  unfold process_audio_and_sidecars
  exact foldl_pres (DryOK fs0) _
    (fun st' f hst => dry_handle_sidecar _ _ st' f hst) _ _
    (dry_dedupe_non_pdf g files st h)

theorem dry_process_directory {fs0 : FS} (g : Globals) (pdf_meta : String → PdfMeta)
    (is_audio : String → Bool) (folder_name : String) (st : PState) (h : DryOK fs0 st) :
    DryOK fs0 (process_directory g pdf_meta is_audio folder_name true st) := by
  unfold process_directory
  dsimp only
  split
  · exact h
  · exact dry_process_audio _ _ _ _
      (dry_process_aux_files _ _ _ _ _ _ _
        (dry_process_aux_files _ _ _ _ _ _ _ h))

/-- C2: with `dry_run = true` (the preview default) no processing function
changes the modelled filesystem — the aux pass, the audio/sidecar pass, the
renamer, the sidecar handler and the whole per-directory pipeline all return
a state whose `fs` equals the input — while every action record they append
is flagged as previewed. -/
theorem C2_dry_run_never_mutates (g : Globals) (pdf_meta : String → PdfMeta)
    (is_audio : String → Bool) (folder_name base_name ext src f : String)
    (files exts : List String) (use_pdf_meta : Bool)
    (cmap : List (Nat × String)) (fs : FS) (c : Counters) :
    ((process_aux_files g pdf_meta folder_name files exts use_pdf_meta true
        ⟨fs, [], c⟩).fs = fs ∧
      (process_aux_files g pdf_meta folder_name files exts use_pdf_meta true
        ⟨fs, [], c⟩).actions.all (fun a => a.dry) = true) ∧
    ((process_audio_and_sidecars g is_audio files true ⟨fs, [], c⟩).fs = fs ∧
      (process_audio_and_sidecars g is_audio files true ⟨fs, [], c⟩).actions.all
        (fun a => a.dry) = true) ∧
    ((rename g base_name true ext src ⟨fs, [], c⟩).fs = fs ∧
      (rename g base_name true ext src ⟨fs, [], c⟩).actions.all (fun a => a.dry) = true) ∧
    ((handle_sidecar g true cmap ⟨fs, [], c⟩ f).fs = fs ∧
      (handle_sidecar g true cmap ⟨fs, [], c⟩ f).actions.all (fun a => a.dry) = true) ∧
    ((process_directory g pdf_meta is_audio folder_name true ⟨fs, [], c⟩).fs = fs ∧
      (process_directory g pdf_meta is_audio folder_name true ⟨fs, [], c⟩).actions.all
        (fun a => a.dry) = true) := by
  have h0 : DryOK fs (⟨fs, [], c⟩ : PState) := ⟨rfl, rfl⟩
  exact ⟨dry_process_aux_files _ _ _ _ _ _ _ h0,
         dry_process_audio _ _ _ _ h0,
         dry_rename _ _ _ _ _ h0,
         dry_handle_sidecar _ _ _ _ h0,
         dry_process_directory _ _ _ _ _ h0⟩

/-- C7: track parsing accepts optional leading whitespace, one or two
digits, an optional separator and a non-empty remainder: `"03 - Intro.mp3"`
parses to `(3, "Intro")` (so does `" 03 - Intro.mp3"` with its leading
whitespace), `"7 Song.flac"` to `(7, "Song")`, and `"3intro.mp3"` is
rejected when the no-space guard is enabled. -/
theorem C7_track_parsing_examples :
    extract_track_info true "03 - Intro.mp3" = some (3, "Intro") ∧
    extract_track_info true " 03 - Intro.mp3" = some (3, "Intro") ∧
    extract_track_info true "7 Song.flac" = some (7, "Song") ∧
    extract_track_info true "3intro.mp3" = none := by
  refine ⟨?_, ?_, ?_, ?_⟩ <;> decide

/-- C6 (code bug): with a configuration that sets `recursive_default = true`
and a command line without `--recursive`, `merge_config_into_globals`
records the override, but `main` computes its recursion flag from
`args.recursive` alone and never reads the merged global, so the run stays
non-recursive. -/
theorem C6_recursive_default_ignored :
    (main_flags false false [("recursive_default", TomlVal.boolV true)]).1 = false ∧
    (main_flags false false
      [("recursive_default", TomlVal.boolV true)]).2.2.RECURSIVE_DEFAULT = true := by
  exact ⟨rfl, rfl⟩

theorem TRACK_RE_match_le (base : List Char) (t : Nat) (g : List Char)
    (h : TRACK_RE_match base = some (t, g)) : t ≤ 99 := by
  unfold TRACK_RE_match at h
  cases htb : base.drop (spacePrefixLen base) with
  | nil => rw [htb] at h; simp at h
  | cons d1 t1 =>
    rw [htb] at h
    dsimp only at h
    by_cases hd1 : isAsciiDigit d1 = true
    case neg =>
      rw [if_neg hd1] at h
      simp at h
    case pos =>
      rw [if_pos hd1] at h
      have hv1 : digitVal d1 ≤ 9 := by
        unfold isAsciiDigit at hd1
        simp only [Bool.and_eq_true, decide_eq_true_eq] at hd1
        unfold digitVal
        omega
      cases t1 with
      | nil =>
        dsimp only at h
        cases htt : trackTail [] with
        | none => rw [htt] at h; simp at h
        | some g1 =>
          rw [htt] at h
          simp only [Option.some.injEq, Prod.mk.injEq] at h
          omega
      | cons d2 t2 =>
        dsimp only at h
        by_cases hd2 : isAsciiDigit d2 = true
        · rw [if_pos hd2] at h
          have hv2 : digitVal d2 ≤ 9 := by
            unfold isAsciiDigit at hd2
            simp only [Bool.and_eq_true, decide_eq_true_eq] at hd2
            unfold digitVal
            omega
          cases htt : trackTail t2 with
          | some g2 =>
            rw [htt] at h
            simp only [Option.some.injEq, Prod.mk.injEq] at h
            omega
          | none =>
            rw [htt] at h
            cases hto : trackTail (d2 :: t2) with
            | none => rw [hto] at h; simp at h
            | some g1 =>
              rw [hto] at h
              simp only [Option.some.injEq, Prod.mk.injEq] at h
              omega
        · rw [if_neg hd2] at h
          cases hto : trackTail (d2 :: t2) with
          | none => rw [hto] at h; simp at h
          | some g1 =>
            rw [hto] at h
            simp only [Option.some.injEq, Prod.mk.injEq] at h
            omega

/-- C8 counterexample: `"00 Intro.mp3"` passes the no-space guard and
parses successfully to track number `0`, outside the claimed range
`1..99`. -/
theorem C8_counterexample :
    extract_track_info true "00 Intro.mp3" = some (0, "Intro") ∧ ¬ (1 ≤ (0 : Nat)) := by
  exact ⟨by decide, by omega⟩

/-- C8 (amended): every successful parse returns a track number of at most
99 (one or two ASCII digits); `0` is attainable (`"00 ..."`, `"0 ..."`), so
the range of track-group keys is `0..99`, not `1..99`. -/
theorem C8_track_range_amended (ignore_no_space : Bool) (f : String) (t : Nat) (r : String)
    (h : extract_track_info ignore_no_space f = some (t, r)) : t ≤ 99 := by
  unfold extract_track_info at h
  split at h
  · exact absurd h (by simp)
  · cases hm : TRACK_RE_match (splitext f.data).1 with
    | none => rw [hm] at h; simp at h
    | some tr =>
      obtain ⟨tt, gg⟩ := tr
      rw [hm] at h
      dsimp only at h
      simp only [Option.some.injEq, Prod.mk.injEq] at h
      obtain ⟨h1, -⟩ := h
      subst h1
      exact TRACK_RE_match_le _ _ _ hm

theorem C8_amended_witness : (3 : Nat) ≤ 99 :=
  C8_track_range_amended true "03 - Intro.mp3" 3 "Intro" (by decide)

/-- C3 counterexample: with `Album.pdf` taken and both suffixed names free,
the renamer returns `Album - 1.pdf`: the first suffixed candidate tried is
` - 1`, not ` - 2` as claimed. -/
theorem C3_counterexample :
    FS.hasFile c3fs "Album.pdf" = true ∧
    FS.hasFile c3fs "Album - 2.pdf" = false ∧
    unique_target_path c3fs "Album" ".pdf" = "Album - 1.pdf" ∧
    unique_target_path c3fs "Album" ".pdf" ≠ "Album - 2.pdf" := by
  refine ⟨by decide, by decide, by decide, by decide⟩

theorem FS.hasFile_nonempty {fs : FS} {n : String} (h : FS.hasFile fs n = true) :
    ∃ m, fs.length = m + 1 := by
  cases fs with
  | nil => simp [FS.hasFile, FS.lookup] at h
  | cons e rest => exact ⟨rest.length, rfl⟩

/-- C3 (amended): when the exact target `base_name + ext` already exists,
numeric disambiguation suffixes are appended starting with ` - 1`, then
` - 2`, and so on, until a free path is found; the first suffixed candidate
tried is ` - 1`. -/
theorem C3_suffix_start_amended (fs : FS) (base_name ext : String)
    (h0 : FS.hasFile fs (base_name ++ ext) = true) :
    (FS.hasFile fs (suffix_candidate base_name ext 1) = false →
      unique_target_path fs base_name ext = suffix_candidate base_name ext 1) ∧
    (FS.hasFile fs (suffix_candidate base_name ext 1) = true →
      FS.hasFile fs (suffix_candidate base_name ext 2) = false →
      unique_target_path fs base_name ext = suffix_candidate base_name ext 2) := by
  obtain ⟨m, hm⟩ := FS.hasFile_nonempty h0
  constructor
  · intro h1
    unfold unique_target_path
    dsimp only
    rw [h0]
    simp only [Bool.not_true, Bool.false_eq_true, if_false]
    rw [hm]
    unfold unique_target_path_loop
    dsimp only
    rw [h1]
    rfl
  · intro h1 h2
    unfold unique_target_path
    dsimp only
    rw [h0]
    simp only [Bool.not_true, Bool.false_eq_true, if_false]
    rw [hm]
    unfold unique_target_path_loop
    dsimp only
    rw [h1]
    simp only [if_true]
    show (unique_target_path_loop fs base_name ext (m + 1) 2).getD (base_name ++ ext) =
      suffix_candidate base_name ext 2
    unfold unique_target_path_loop
    dsimp only
    rw [h2]
    rfl

theorem C3_amended_witness :
    unique_target_path c3fsW "Album" ".pdf" = suffix_candidate "Album" ".pdf" 2 :=
  (C3_suffix_start_amended c3fsW "Album" ".pdf" (by decide)).2 (by decide) (by decide)

/-- C4: for a sidecar whose parsed track number has a canonical audio file,
conflict resolution at the target follows exactly the claimed case analysis:
same path → untouched state (no action record); target exists and is
strictly older → replace (one replacement counted); target exists and is not
older → delete the source (one removed sidecar counted); target absent →
rename the source onto the target (one renamed sidecar counted).  Mutations
apply only when not previewing. -/
theorem C4_sidecar_conflict_cases (g : Globals) (dry_run : Bool)
    (cmap : List (Nat × String)) (st : PState) (f can : String)
    (track : Nat) (rest : String)
    (h1 : extract_track_info g.IGNORE_NO_SPACE f = some (track, rest))
    (h2 : lookupKey cmap track = some can) :
    (f = sidecar_target can f → handle_sidecar g dry_run cmap st f = st) ∧
    (f ≠ sidecar_target can f →
      FS.hasFile st.fs (sidecar_target can f) = true →
      FS.mtime st.fs (sidecar_target can f) < FS.mtime st.fs f →
      handle_sidecar g dry_run cmap st f =
        { fs := if dry_run then st.fs else FS.replace st.fs f (sidecar_target can f),
          actions := st.actions ++ [⟨dry_run,
            "Replace older target [" ++ sidecar_target can f ++ "] with [" ++ f ++ "]"⟩],
          counters :=
            { st.counters with replacements := st.counters.replacements + 1 } }) ∧
    (f ≠ sidecar_target can f →
      FS.hasFile st.fs (sidecar_target can f) = true →
      ¬ (FS.mtime st.fs (sidecar_target can f) < FS.mtime st.fs f) →
      handle_sidecar g dry_run cmap st f =
        { fs := if dry_run then st.fs else FS.remove st.fs f,
          actions := st.actions ++ [⟨dry_run, padTo "Delete Sidecar:" 22 ++
            "[" ++ f ++ "], newer target [" ++ sidecar_target can f ++ "]"⟩],
          counters :=
            { st.counters with removed_sidecars := st.counters.removed_sidecars + 1 } }) ∧
    (f ≠ sidecar_target can f →
      FS.hasFile st.fs (sidecar_target can f) = false →
      handle_sidecar g dry_run cmap st f =
        { fs := if dry_run then st.fs else FS.replace st.fs f (sidecar_target can f),
          actions := st.actions ++ [⟨dry_run, padTo "Rename Sidecar:" 22 ++
            "[" ++ f ++ "] -> [" ++ sidecar_target can f ++ "]"⟩],
          counters :=
            { st.counters with renamed_sidecars := st.counters.renamed_sidecars + 1 } }) := by
  have hun : handle_sidecar g dry_run cmap st f =
      (if (f == sidecar_target can f) = true then st
       else if FS.hasFile st.fs (sidecar_target can f) = true then
         if FS.mtime st.fs (sidecar_target can f) < FS.mtime st.fs f then
           let st' := { st with counters :=
             { st.counters with replacements := st.counters.replacements + 1 } }
           let st' := addAction st' dry_run
             ("Replace older target [" ++ sidecar_target can f ++ "] with [" ++ f ++ "]")
           if dry_run then st'
           else { st' with fs := FS.replace st'.fs f (sidecar_target can f) }
         else
           let st' := { st with counters :=
             { st.counters with removed_sidecars := st.counters.removed_sidecars + 1 } }
           let st' := addAction st' dry_run (padTo "Delete Sidecar:" 22 ++
             "[" ++ f ++ "], newer target [" ++ sidecar_target can f ++ "]")
           if dry_run then st' else { st' with fs := FS.remove st'.fs f }
       else
         let st' := { st with counters :=
           { st.counters with renamed_sidecars := st.counters.renamed_sidecars + 1 } }
         let st' := addAction st' dry_run (padTo "Rename Sidecar:" 22 ++
           "[" ++ f ++ "] -> [" ++ sidecar_target can f ++ "]")
         if dry_run then st'
         else { st' with fs := FS.replace st'.fs f (sidecar_target can f) }) := by
    unfold handle_sidecar
    rw [h1]
    dsimp only
    rw [h2]
    rfl
  refine ⟨?_, ?_, ?_, ?_⟩
  · intro hfe
    rw [hun, if_pos (beq_iff_eq.mpr hfe)]
  · intro hfe hex hlt
    rw [hun, if_neg (by simp [hfe]), if_pos hex, if_pos hlt]
    cases dry_run <;> simp [addAction]
  · intro hfe hex hlt
    rw [hun, if_neg (by simp [hfe]), if_pos hex, if_neg hlt]
    cases dry_run <;> simp [addAction]
  · intro hfe hex
    rw [hun, if_neg (by simp [hfe]), if_neg (by simp [hex])]
    cases dry_run <;> simp [addAction]

theorem C4_witness :
    handle_sidecar {} false c4map c4st "01 lyric.lrc" =
      { fs := if false then c4st.fs
              else FS.replace c4st.fs "01 lyric.lrc"
                (sidecar_target "01 Track.flac" "01 lyric.lrc"),
        actions := c4st.actions ++ [⟨false, padTo "Rename Sidecar:" 22 ++
          "[" ++ "01 lyric.lrc" ++ "] -> [" ++
          sidecar_target "01 Track.flac" "01 lyric.lrc" ++ "]"⟩],
        counters :=
          { c4st.counters with
            renamed_sidecars := c4st.counters.renamed_sidecars + 1 } } :=
  (C4_sidecar_conflict_cases {} false c4map c4st "01 lyric.lrc" "01 Track.flac" 1 "lyric"
    (by decide) (by decide)).2.2.2 (by decide) (by decide)

/-- C9: `is_sidecar_by_prefix` returns `true` exactly when the
case-insensitive criterion of the specification holds, and in particular
`cover.jpg`, `cover-1.jpg` and `cover_back.png` match the prefix `cover`
while `coverage.txt` does not. -/
theorem C9_sidecar_prefix_characterization (prefixes : List String) (filename : String) :
    ( is_sidecar_by_prefix prefixes filename = true ↔
      SidecarPrefixSpec prefixes filename) ∧
    is_sidecar_by_prefix ["cover"] "cover.jpg" = true ∧
    is_sidecar_by_prefix ["cover"] "cover-1.jpg" = true ∧
    is_sidecar_by_prefix ["cover"] "cover_back.png" = true ∧
    is_sidecar_by_prefix ["cover"] "coverage.txt" = false := by
  refine ⟨?_, by decide, by decide, by decide, by decide⟩
  unfold is_sidecar_by_prefix SidecarPrefixSpec
  dsimp only
  rw [List.any_eq_true]
  constructor
  · rintro ⟨pw, hpw, hcond⟩
    refine ⟨pw, hpw, ?_⟩
    simp only [Bool.or_eq_true, Bool.and_eq_true, beq_iff_eq,
      List.isPrefixOf_iff_prefix, decide_eq_true_eq, Bool.not_eq_true'] at hcond
    tauto
  · rintro ⟨pw, hpw, hcond⟩
    refine ⟨pw, hpw, ?_⟩
    simp only [Bool.or_eq_true, Bool.and_eq_true, beq_iff_eq,
      List.isPrefixOf_iff_prefix, decide_eq_true_eq, Bool.not_eq_true']
    tauto

theorem lookupKey_keys_none {κ : Type} [BEq κ] (l : List (κ × List String)) (k : κ)
    (h : ∀ e ∈ l, (e.1 == k) = false) : lookupKey l k = none := by
  induction l with
  | nil => rfl
  | cons e rest ih =>
    obtain ⟨k', v⟩ := e
    simp only [lookupKey]
    rw [if_neg (by simp [h (k', v) (List.mem_cons_self _ _)])]
    exact ih (fun e' he' => h e' (List.mem_cons_of_mem _ he'))

theorem addToGroup_fresh {κ : Type} [BEq κ] (m : List (κ × List String)) (k : κ) (v : String)
    (h : lookupKey m k = none) : addToGroup m k v = m ++ [(k, [v])] := by
  induction m with
  | nil => rfl
  | cons e rest ih =>
    obtain ⟨k', g⟩ := e
    simp only [lookupKey] at h
    by_cases hk : (k' == k) = true
    · rw [if_pos hk] at h
      simp at h
    · rw [if_neg hk] at h
      simp only [addToGroup]
      rw [if_neg hk, ih h]
      simp

theorem hash_fold_singletons (hashF : String → Option Nat) :
    ∀ (l pre : List String),
      (∀ f ∈ pre ++ l, (hashF f).isSome = true) →
      (∀ f1 ∈ pre ++ l, ∀ f2 ∈ pre ++ l, hashF f1 = hashF f2 → f1 = f2) →
      (pre ++ l).Nodup →
      l.foldl (hash_group_step hashF) (pre.map (fun f => ((hashF f).getD 0, [f]))) =
        (pre ++ l).map (fun f => ((hashF f).getD 0, [f])) := by
  intro l
  induction l with
  | nil => intro pre _ _ _; simp
  | cons x xs ih =>
    intro pre hsome hinj hnd
    rw [List.foldl_cons]
    have hxmem : x ∈ pre ++ x :: xs := by simp
    obtain ⟨v, hv⟩ := Option.isSome_iff_exists.mp (hsome x hxmem)
    have hstep : hash_group_step hashF (pre.map (fun f => ((hashF f).getD 0, [f]))) x =
        (pre ++ [x]).map (fun f => ((hashF f).getD 0, [f])) := by
      unfold hash_group_step
      rw [hv]
      dsimp only
      rw [addToGroup_fresh]
      · rw [List.map_append, List.map_cons, List.map_nil, hv]
        rfl
      · apply lookupKey_keys_none
        intro e he
        obtain ⟨f, hf, rfl⟩ := List.mem_map.mp he
        simp only [beq_eq_false_iff_ne, ne_eq]
        intro hk
        obtain ⟨w, hw⟩ := Option.isSome_iff_exists.mp (hsome f (by simp [hf]))
        rw [hw] at hk
        simp only [Option.getD_some] at hk
        subst hk
        have hfx : f = x := hinj f (by simp [hf]) x hxmem (by rw [hw, hv])
        subst hfx
        have hdisj := (List.nodup_append.mp hnd).2.2
        exact hdisj hf (List.mem_cons_self _ _)
    rw [hstep]
    have hre : pre ++ x :: xs = (pre ++ [x]) ++ xs := by simp
    rw [hre] at hsome hinj hnd ⊢
    exact ih (pre ++ [x]) hsome hinj hnd

theorem process_group_singleton (mtimeF : String → Int) (dry_run : Bool)
    (acc : PState × List String) (f : String) :
    process_group mtimeF dry_run acc [f] = (acc.1, acc.2 ++ [f]) := rfl

theorem aux_dedup_map_singletons (dry_run : Bool) (st : PState) (l : List String)
    (keyF : String → Nat) :
    aux_dedup dry_run st (l.map (fun f => (keyF f, [f]))) = (st, l) := by
  unfold aux_dedup
  rw [List.foldl_map]
  have h : ∀ (l' : List String) (acc : PState × List String),
      l'.foldl (fun acc f =>
        process_group (FS.mtime acc.1.fs) dry_run acc ((keyF f, [f]).2)) acc =
        (acc.1, acc.2 ++ l') := by
    intro l'
    induction l' with
    | nil => intro acc; simp
    | cons y ys ih =>
      intro acc
      rw [List.foldl_cons, process_group_singleton, ih]
      simp
  have := h l (st, [])
  simpa using this

theorem foldl_id_of_skip {α σ : Type _} (f : σ → α → σ) (l : List α)
    (h : ∀ s x, x ∈ l → f s x = s) : ∀ s, l.foldl f s = s := by
  induction l with
  | nil => intro s; rfl
  | cons x xs ih =>
    intro s
    rw [List.foldl_cons, h s x (List.mem_cons_self _ _)]
    exact ih (fun s' y hy => h s' y (List.mem_cons_of_mem _ hy)) s

theorem mem_insertByMtime (y x : InfoRec) (l : List InfoRec) :
    y ∈ insertByMtime x l ↔ y = x ∨ y ∈ l := by
  induction l with
  | nil => simp [insertByMtime]
  | cons z zs ih =>
    simp only [insertByMtime]
    split
    · simp [List.mem_cons]
    · simp only [List.mem_cons, ih]
      tauto

theorem mem_sortByMtime (y : InfoRec) (l : List InfoRec) :
    y ∈ sortByMtime l ↔ y ∈ l := by
  unfold sortByMtime
  suffices h : ∀ (l' : List InfoRec) (acc : List InfoRec),
      y ∈ l'.foldl (fun acc x => insertByMtime x acc) acc ↔ y ∈ acc ∨ y ∈ l' by
    simpa using h l []
  intro l'
  induction l' with
  | nil => intro acc; simp
  | cons x xs ih =>
    intro acc
    rw [List.foldl_cons, ih]
    simp only [mem_insertByMtime, List.mem_cons]
    tauto

/-- C5 (amended): a run of the aux pass is a no-op — state returned
unchanged, no actions — exactly in the situation the no-op check can
recognise: every selected file already bears its unsuffixed canonical name
(`aux_base_name ++ lowercased extension`) and no two selected files share a
content hash.  (In general the pipeline is not idempotent: a file that
received a numeric suffix, such as `Album - 1.pdf`, fails the unsuffixed
no-op check and is renamed again on every run.) -/
theorem C5_aux_pass_noop_amended (g : Globals) (pdf_meta : String → PdfMeta)
    (folder_name : String) (files exts : List String) (use_pdf_meta : Bool)
    (dry_run : Bool) (st : PState)
    (hnodup : (aux_selected exts files).Nodup)
    (hsome : ∀ f ∈ aux_selected exts files, (FS.hash st.fs f).isSome = true)
    (hinj : ∀ f1 ∈ aux_selected exts files, ∀ f2 ∈ aux_selected exts files,
      FS.hash st.fs f1 = FS.hash st.fs f2 → f1 = f2)
    (hname : ∀ f ∈ aux_selected exts files,
      f = aux_base_name folder_name use_pdf_meta (aux_meta_of pdf_meta use_pdf_meta f)
          ++ lower_ext f) :
    process_aux_files g pdf_meta folder_name files exts use_pdf_meta dry_run st = st := by
  unfold process_aux_files
  dsimp only
  by_cases hsel : (aux_selected exts files).isEmpty = true
  · rw [if_pos hsel]
  · rw [if_neg hsel]
    have hmap : aux_checksum_map st.fs (aux_selected exts files) =
        (aux_selected exts files).map (fun f => ((FS.hash st.fs f).getD 0, [f])) := by
      unfold aux_checksum_map
      have h := hash_fold_singletons (FS.hash st.fs) (aux_selected exts files) []
        (by simpa using hsome) (by simpa using hinj) (by simpa using hnodup)
      simpa using h
    rw [hmap,
      aux_dedup_map_singletons dry_run st (aux_selected exts files)
        (fun f => (FS.hash st.fs f).getD 0)]
    dsimp only
    have hmeta : ∀ (s : PState) (i : InfoRec),
        i ∈ (aux_info_list pdf_meta use_pdf_meta st.fs (aux_selected exts files)).filter
          (fun i => aux_uses_meta use_pdf_meta i.meta) →
        meta_rename_step g folder_name use_pdf_meta dry_run s i = s := by
      intro s i hi
      have hi1 : i ∈ aux_info_list pdf_meta use_pdf_meta st.fs (aux_selected exts files) :=
        (List.mem_filter.mp hi).1
      obtain ⟨f, hf, rfl⟩ := List.mem_map.mp (by simpa [aux_info_list] using hi1)
      unfold meta_rename_step
      dsimp only
      rw [if_pos (beq_iff_eq.mpr (hname f hf))]
    have hstd : ∀ (s : PState) (i : InfoRec),
        i ∈ sortByMtime
          ((aux_info_list pdf_meta use_pdf_meta st.fs (aux_selected exts files)).filter
            (fun i => !(aux_uses_meta use_pdf_meta i.meta))) →
        std_rename_step g folder_name dry_run s i = s := by
      intro s i hi
      rw [mem_sortByMtime] at hi
      have hcond := (List.mem_filter.mp hi).2
      have hi1 := (List.mem_filter.mp hi).1
      obtain ⟨f, hf, rfl⟩ := List.mem_map.mp (by simpa [aux_info_list] using hi1)
      have hfalse : aux_uses_meta use_pdf_meta (aux_meta_of pdf_meta use_pdf_meta f) = false := by
        simpa using hcond
      have hbase : aux_base_name folder_name use_pdf_meta
          (aux_meta_of pdf_meta use_pdf_meta f) = folder_name := by
        unfold aux_base_name
        rw [if_neg (by simp [hfalse])]
      unfold std_rename_step
      dsimp only
      rw [if_pos]
      apply beq_iff_eq.mpr
      have hn := hname f hf
      rw [hbase] at hn
      exact hn
    rw [foldl_id_of_skip _ _ hmeta st, foldl_id_of_skip _ _ hstd st]

theorem C5_amended_witness :
    process_aux_files {} (fun _ => {}) "Album" ["Album.pdf"] [".pdf"] true false c5stW =
      c5stW :=
  C5_aux_pass_noop_amended {} (fun _ => {}) "Album" ["Album.pdf"] [".pdf"] true false c5stW
    (by decide) (by decide) (by decide) (by decide)

/-- C5 counterexample: a directory with two distinct-content PDFs.  The
first apply run renames them to `Album.pdf` and `Album - 1.pdf`; the second
apply run is not empty — the suffixed survivor fails the unsuffixed no-op
check and is renamed again, to `Album - 2.pdf`. -/
theorem C5_counterexample :
    c5run1.actions.length = 2 ∧
    c5run2.actions ≠ [] ∧
    c5run2.actions =
      [⟨false, padTo "Rename Album Related:" 22 ++ "[" ++ "Album - 1.pdf" ++ "] -> [" ++
        "Album - 2.pdf" ++ "]"⟩] := by
  refine ⟨by decide, by decide, by decide⟩
